import Mathlib

/-!
Shallow embedding of the contact store of `src/model.rs` (contacts-app-rs).

The Rust `HashMap<K, V>` is modelled as an association list with unique keys;
`insert` replaces the value in place when the key is present and appends
otherwise, `remove` drops the key, and iteration order of the model list plays
the role of the map's iteration sequence.  Rust panics (`unwrap` on `None`,
`expect`) are modelled by `Option`-valued operations returning `none`.
File I/O is modelled by its data content: `save_db` produces the list of
contacts written as the JSON array, `ContactStore.from_path` consumes such a
list.
-/

namespace ContactsApp

/-- Contact record of `model.rs` (the `errors` map is an association list
from field name to message, mirroring `HashMap<String, String>`). -/
structure Contact where
  id : Option Nat
  first : Option String
  last : Option String
  phone : Option String
  email : Option String
  errors : List (String × String)
deriving DecidableEq

/-- `Contact::default()`: all fields absent, empty error map. -/
def Contact.default : Contact :=
  { id := none, first := none, last := none, phone := none, email := none, errors := [] }

/-- `Contact::new(first, last, phone, email)`. -/
def Contact.new (first last phone email : Option String) : Contact :=
  { Contact.default with first := first, last := last, phone := phone, email := email }

/-- `HashMap::insert`: replace the value in place when the key is already
present, append the binding otherwise. -/
def hmInsert {α β : Type} [DecidableEq α] (k : α) (v : β) (m : List (α × β)) :
    List (α × β) :=
  if m.any (fun p => decide (p.1 = k)) then
    m.map (fun p => if p.1 = k then (k, v) else p)
  else m ++ [(k, v)]

/-- `HashMap::get`. -/
def hmLookup {α β : Type} [DecidableEq α] (k : α) : List (α × β) → Option β
  | [] => none
  | p :: rest => if p.1 = k then some p.2 else hmLookup k rest

/-- `HashMap::remove` (ignoring the returned value). -/
def hmErase {α β : Type} [DecidableEq α] (k : α) (m : List (α × β)) :
    List (α × β) :=
  m.filter (fun p => decide (p.1 ≠ k))

/-- `Contact::validate`: inserts the email-required error when the email is
absent or empty, then reports whether the error map is empty.  Note that the
function never removes entries from `errors`. -/
def Contact.validate (c : Contact) : Contact × Bool :=
  let e1 := if c.email = none then hmInsert "email" "Email Required" c.errors else c.errors
  let e2 := if c.email.any (fun s => s == "") then hmInsert "email" "Email Required" e1 else e1
  ({ c with errors := e2 }, e2.length == 0)

/-- `Contact::update`: replaces all four mutable fields unconditionally. -/
def Contact.update (c : Contact) (first last phone email : Option String) : Contact :=
  { c with first := first, last := last, phone := phone, email := email }

/-- The in-memory store: `HashMap<u64, Contact>` as an association list. -/
abbrev Store := List (Nat × Contact)

/-- The keys of the store. -/
def storeKeys (s : Store) : List Nat := s.map Prod.fst

/-- `contacts.values()` in iteration order. -/
def storeValues (s : Store) : List Contact := s.map Prod.snd

/-- `PAGE_SIZE` constant of `model.rs`. -/
def PAGE_SIZE : Nat := 10

/-- Decidable prefix test on character lists. -/
def isPrefixB : List Char → List Char → Bool
  | [], _ => true
  | _ :: _, [] => false
  | a :: as, b :: bs => a == b && isPrefixB as bs

/-- Substring occurrence of `needle` in `hay` (some suffix of `hay` starts
with `needle`). -/
def segContains (needle : List Char) : List Char → Bool
  | [] => isPrefixB needle []
  | c :: rest => isPrefixB needle (c :: rest) || segContains needle rest

/-- Rust `str::contains(query)`: substring test. -/
def strContains (s query : String) : Bool := segContains query.data s.data

/-- `field.as_ref().map(|s| s.contains(query)).unwrap_or(false)`. -/
def optMatch (f : Option String) (q : String) : Bool :=
  match f with
  | some s => strContains s q
  | none => false

/-- `MemContactRepo::all(page)`: skip `(page - 1) * PAGE_SIZE`, take
`PAGE_SIZE` from the store's iteration sequence.  (In Rust `page = 0`
underflows the `usize` subtraction; the claims only concern `page ≥ 1`.) -/
def all (s : Store) (page : Nat) : List Contact :=
  ((storeValues s).drop ((page - 1) * PAGE_SIZE)).take PAGE_SIZE

/-- `MemContactRepo::search(query)`: every contact one of whose present
fields contains the query as a substring, in iteration order. -/
def search (s : Store) (query : String) : List Contact :=
  (storeValues s).filter (fun c =>
    optMatch c.first query || optMatch c.last query ||
    optMatch c.phone query || optMatch c.email query)

/-- `MemContactRepo::max_id`: maximum key of the store, `1` when empty. -/
def max_id (s : Store) : Nat := ((storeKeys s).max?).getD 1

/-- The duplicate-scan loop of `MemContactRepo::validate` over the search
results; `none` models the panic of `cont.email.as_ref().unwrap()` on a
stored contact with an absent email (only reached when the ids differ,
mirroring the short-circuit `&&`). -/
def dupScan (cid : Option Nat) (cemail : String) : List Contact → Option Bool
  | [] => some false
  | cont :: rest =>
    if cid ≠ cont.id then
      match cont.email with
      | none => none
      | some e => if e = cemail then some true else dupScan cid cemail rest
    else dupScan cid cemail rest

/-- `MemContactRepo::validate`: field validation, then the email-uniqueness
scan over `search(email)`; returns the (possibly annotated) contact and the
verdict, or `none` on panic. -/
def MemContactRepo.validate (s : Store) (c : Contact) : Option (Contact × Bool) :=
  let vc := c.validate
  if vc.2 = false then some (vc.1, false)
  else
    match vc.1.email with
    | none => none
    | some cemail =>
      match dupScan vc.1.id cemail (search s cemail) with
      | none => none
      | some true =>
        some ({ vc.1 with errors := hmInsert "email" "Email Already Exists" vc.1.errors }, false)
      | some false => some (vc.1, true)

/-- `MemContactRepo::save`: validate, assign `max_id + 1` when the id is
absent, insert under the carried id.  Returns the new store and the
`Result`, or `none` on panic. -/
def save (s : Store) (c : Contact) : Option (Store × Except Contact Unit) :=
  match MemContactRepo.validate s c with
  | none => none
  | some (c1, false) => some (s, Except.error c1)
  | some (c1, true) =>
    let c2 := if c1.id = none then { c1 with id := some (max_id s + 1) } else c1
    match c2.id with
    | none => none
    | some i => some (hmInsert i c2 s, Except.ok ())

/-- `MemContactRepo::find(id)`. -/
def find (s : Store) (i : Nat) : Option Contact := hmLookup i s

/-- `MemContactRepo::delete(contact)`: removes the key `contact.id.unwrap()`;
`none` models the panic on an id-less contact. -/
def delete (s : Store) (c : Contact) : Option Store :=
  match c.id with
  | none => none
  | some i => some (hmErase i s)

/-- `MemContactRepo::save_db`: the JSON array written to the backing file is
the store's value sequence. -/
def save_db (s : Store) : List Contact := storeValues s

/-- The insertion loop of `ContactStore::from_path`; `none` models the panic
of `contact.id.unwrap()` on an id-less contact in the file. -/
def from_pathAux (s : Store) : List Contact → Option Store
  | [] => some s
  | c :: rest =>
    match c.id with
    | none => none
    | some i => from_pathAux (hmInsert i c s) rest

/-- `ContactStore::from_path`: reads the JSON array and keys each contact by
its own id. -/
def ContactStore.from_path (l : List Contact) : Option Store := from_pathAux [] l

/-- Store states reachable from the empty store by `save` and `delete`. -/
inductive Reachable : Store → Prop
  | empty : Reachable []
  | save_step {s s' : Store} {c : Contact} {r : Except Contact Unit} :
      Reachable s → save s c = some (s', r) → Reachable s'
  | delete_step {s s' : Store} {c : Contact} :
      Reachable s → delete s c = some s' → Reachable s'

/-- Every stored contact has a present email (holds in every state the
repository itself produces; rules out the `unwrap` panic inside the
uniqueness scan). -/
abbrev EmailsPresent (s : Store) : Prop := ∀ p ∈ s, p.2.email.isSome = true

/-- Every key points at a contact carrying exactly that id. -/
abbrev KeyIdAgree (s : Store) : Prop := ∀ p ∈ s, p.2.id = some p.1

/-- The keys of the store are pairwise distinct. -/
abbrev NodupKeys (s : Store) : Prop := (storeKeys s).Nodup

/-- Some contact already in the store, with an id different from the
candidate's, has exactly the candidate's email. -/
abbrev DupExists (s : Store) (c : Contact) : Prop :=
  ∃ p ∈ s, p.2.id ≠ c.id ∧ p.2.email = c.email

/-! ### Association-map lemmas -/

theorem hmLookup_map_replace {α β : Type} [DecidableEq α] (k : α) (v : β)
    (m : List (α × β)) (h : m.any (fun p => decide (p.1 = k)) = true) :
    hmLookup k (m.map (fun p => if p.1 = k then (k, v) else p)) = some v := by
  induction m with
  | nil => simp at h
  | cons p rest ih =>
    by_cases hp : p.1 = k
    · simp [hmLookup, hp]
    · simp only [List.any_cons, hp, Bool.false_or, decide_eq_true_eq, false_or] at h
      simp [hmLookup, hp, ih (by simpa using h)]

theorem hmLookup_append_right {α β : Type} [DecidableEq α] (k : α)
    (m l : List (α × β)) (h : ∀ p ∈ m, p.1 ≠ k) :
    hmLookup k (m ++ l) = hmLookup k l := by
  induction m with
  | nil => simp
  | cons p rest ih =>
    have hp : p.1 ≠ k := h p (by simp)
    simp only [List.cons_append, hmLookup, hp, if_false]
    exact ih (fun q hq => h q (by simp [hq]))

theorem hmLookup_insert_self {α β : Type} [DecidableEq α] (k : α) (v : β)
    (m : List (α × β)) : hmLookup k (hmInsert k v m) = some v := by
  unfold hmInsert
  by_cases h : m.any (fun p => decide (p.1 = k)) = true
  · rw [if_pos h]
    exact hmLookup_map_replace k v m h
  · rw [if_neg h]
    have hfresh : ∀ p ∈ m, p.1 ≠ k := fun p hp hk =>
      h (List.any_eq_true.mpr ⟨p, hp, by simpa using hk⟩)
    rw [hmLookup_append_right k m _ hfresh]
    simp [hmLookup]

theorem any_key_eq_false {α β : Type} [DecidableEq α] {k : α} {m : List (α × β)}
    (h : ¬ m.any (fun p => decide (p.1 = k)) = true) : ∀ p ∈ m, p.1 ≠ k :=
  fun p hp hk => h (List.any_eq_true.mpr ⟨p, hp, by simpa using hk⟩)

theorem hmInsert_length_pos {α β : Type} [DecidableEq α] (k : α) (v : β)
    (m : List (α × β)) : 0 < (hmInsert k v m).length := by
  unfold hmInsert
  by_cases h : m.any (fun p => decide (p.1 = k)) = true
  · rw [if_pos h, List.length_map]
    cases m with
    | nil => simp at h
    | cons p rest => simp
  · rw [if_neg h]
    simp

theorem mem_hmInsert {α β : Type} [DecidableEq α] {k : α} {v : β}
    {m : List (α × β)} {q : α × β} (h : q ∈ hmInsert k v m) :
    q = (k, v) ∨ q ∈ m := by
  unfold hmInsert at h
  by_cases hb : m.any (fun p => decide (p.1 = k)) = true
  · rw [if_pos hb, List.mem_map] at h
    obtain ⟨p, hp, hq⟩ := h
    by_cases hk : p.1 = k
    · rw [if_pos hk] at hq
      exact Or.inl hq.symm
    · rw [if_neg hk] at hq
      exact Or.inr (hq ▸ hp)
  · rw [if_neg hb, List.mem_append, List.mem_singleton] at h
    exact h.symm.imp id id

theorem hmInsert_of_fresh {α β : Type} [DecidableEq α] {k : α} (v : β)
    {m : List (α × β)} (h : ∀ p ∈ m, p.1 ≠ k) :
    hmInsert k v m = m ++ [(k, v)] := by
  unfold hmInsert
  rw [if_neg]
  intro hb
  obtain ⟨p, hp, hk⟩ := List.any_eq_true.mp hb
  exact h p hp (by simpa using hk)

theorem keys_hmInsert_of_present {α β : Type} [DecidableEq α] {k : α} (v : β)
    {m : List (α × β)} (h : m.any (fun p => decide (p.1 = k)) = true) :
    (hmInsert k v m).map Prod.fst = m.map Prod.fst := by
  unfold hmInsert
  rw [if_pos h, List.map_map]
  refine List.map_congr_left (fun p _ => ?_)
  by_cases hk : p.1 = k <;> simp [hk]

theorem keys_nodup_hmInsert {α β : Type} [DecidableEq α] (k : α) (v : β)
    (m : List (α × β)) (h : (m.map Prod.fst).Nodup) :
    ((hmInsert k v m).map Prod.fst).Nodup := by
  by_cases hb : m.any (fun p => decide (p.1 = k)) = true
  · rw [keys_hmInsert_of_present v hb]
    exact h
  · have hfresh : ∀ p ∈ m, p.1 ≠ k := any_key_eq_false hb
    rw [hmInsert_of_fresh v hfresh]
    have hperm : ((m ++ [(k, v)]).map Prod.fst).Perm (k :: m.map Prod.fst) :=
      (List.perm_append_singleton (k, v) m).map Prod.fst
    refine hperm.nodup_iff.mpr (List.nodup_cons.mpr ⟨?_, h⟩)
    simp only [List.mem_map, not_exists, not_and]
    intro p hp hk
    exact hfresh p hp hk

theorem hmLookup_eraseKey_self {α β : Type} [DecidableEq α] (k : α)
    (m : List (α × β)) : hmLookup k (hmErase k m) = none := by
  induction m with
  | nil => rfl
  | cons p rest ih =>
    by_cases hp : p.1 = k
    · simpa [hmErase, List.filter_cons, hp] using ih
    · simpa [hmErase, List.filter_cons, hmLookup, hp] using ih

theorem hmLookup_eraseKey_ne {α β : Type} [DecidableEq α] {k j : α}
    (hkj : j ≠ k) (m : List (α × β)) :
    hmLookup j (hmErase k m) = hmLookup j m := by
  induction m with
  | nil => rfl
  | cons p rest ih =>
    simp only [hmErase, List.filter_cons] at ih ⊢
    by_cases hp : p.1 = k
    · have hcond : decide (p.1 ≠ k) = false := by simp [hp]
      rw [hcond]
      simp only [Bool.false_eq_true, if_false]
      rw [ih]
      have hpj : p.1 ≠ j := fun hh => hkj (hh ▸ hp)
      simp only [hmLookup]
      rw [if_neg (fun hh : p.1 = j => hpj hh)]
    · have hcond : decide (p.1 ≠ k) = true := by simp [hp]
      rw [hcond, if_pos rfl]
      simp only [hmLookup]
      by_cases hj : p.1 = j
      · rw [if_pos hj, if_pos hj]
      · rw [if_neg hj, if_neg hj]
        exact ih

theorem hmErase_of_lookup_none {α β : Type} [DecidableEq α] {k : α}
    {m : List (α × β)} (h : hmLookup k m = none) : hmErase k m = m := by
  induction m with
  | nil => rfl
  | cons p rest ih =>
    by_cases hp : p.1 = k
    · simp [hmLookup, hp] at h
    · rw [hmLookup, if_neg hp] at h
      simp only [hmErase, List.filter_cons] at ih ⊢
      have hcond : decide (p.1 ≠ k) = true := by simp [hp]
      rw [hcond, if_pos rfl, ih h]

theorem hmErase_sub {α β : Type} [DecidableEq α] {k : α} {m : List (α × β)}
    {q : α × β} (h : q ∈ hmErase k m) : q ∈ m :=
  List.mem_of_mem_filter h

/-! ### Substring lemmas -/

theorem isPrefixB_refl (l : List Char) : isPrefixB l l = true := by
  induction l with
  | nil => rfl
  | cons a as ih => simp [isPrefixB, ih]

theorem segContains_self (l : List Char) : segContains l l = true := by
  cases l with
  | nil => rfl
  | cons c rest => simp [segContains, isPrefixB_refl]

theorem strContains_self (s : String) : strContains s s = true :=
  segContains_self s.data

theorem segContains_nil (l : List Char) : segContains [] l = true := by
  cases l with
  | nil => rfl
  | cons c rest => simp [segContains, isPrefixB]

theorem strContains_empty (s : String) : strContains s "" = true :=
  segContains_nil s.data

/-! ### Search lemmas -/

theorem mem_storeValues {s : Store} {c : Contact} :
    c ∈ storeValues s ↔ ∃ p ∈ s, p.2 = c := by
  simp [storeValues, List.mem_map]

theorem mem_search {s : Store} {q : String} {c : Contact} :
    c ∈ search s q ↔ c ∈ storeValues s ∧
      (optMatch c.first q || optMatch c.last q ||
       optMatch c.phone q || optMatch c.email q) = true := by
  simp [search, List.mem_filter]

theorem search_emails_present {s : Store} (hep : EmailsPresent s) {q : String} :
    ∀ c ∈ search s q, c.email.isSome = true := by
  intro c hc
  obtain ⟨p, hp, rfl⟩ := mem_storeValues.mp (mem_search.mp hc).1
  exact hep p hp

/-! ### Field-validation structure lemmas -/

theorem validate_eq_none {c : Contact} (h : c.email = none) :
    Contact.validate c =
      ({ c with errors := hmInsert "email" "Email Required" c.errors },
        (hmInsert "email" "Email Required" c.errors).length == 0) := by
  unfold Contact.validate
  rw [h]
  simp

theorem validate_eq_some_empty {c : Contact} (h : c.email = some "") :
    Contact.validate c =
      ({ c with errors := hmInsert "email" "Email Required" c.errors },
        (hmInsert "email" "Email Required" c.errors).length == 0) := by
  unfold Contact.validate
  rw [h]
  simp

theorem validate_eq_some {c : Contact} {ce : String} (h : c.email = some ce)
    (hce : ce ≠ "") :
    Contact.validate c = (c, c.errors.length == 0) := by
  obtain ⟨cid, cf, cl, cp, cm, cerr⟩ := c
  simp only at h
  subst h
  simp [Contact.validate, hce]

theorem validate_true_elim {c : Contact} (h : (Contact.validate c).2 = true) :
    c.errors = [] ∧ ∃ ce, c.email = some ce ∧ ce ≠ "" ∧ Contact.validate c = (c, true) := by
  match hmail : c.email with
  | none =>
    exfalso
    rw [validate_eq_none hmail] at h
    simp only [beq_iff_eq] at h
    have := hmInsert_length_pos "email" "Email Required" c.errors
    omega
  | some ce =>
    by_cases hce : ce = ""
    · exfalso
      subst hce
      rw [validate_eq_some_empty hmail] at h
      simp only [beq_iff_eq] at h
      have := hmInsert_length_pos "email" "Email Required" c.errors
      omega
    · have hval := validate_eq_some hmail hce
      rw [hval] at h
      have herr : c.errors = [] := by simpa using h
      refine ⟨herr, ce, rfl, hce, ?_⟩
      rw [hval, herr]
      rfl

/-! ### Uniqueness-scan lemmas -/

theorem optMatch_of_eq {o : Option String} {ce : String} (h : o = some ce) :
    optMatch o ce = true := by
  rw [h]
  simp [optMatch, strContains_self]

theorem dupScan_spec (cid : Option Nat) (ce : String) (l : List Contact)
    (h : ∀ c' ∈ l, c'.email.isSome = true) :
    dupScan cid ce l = some (decide (∃ c' ∈ l, cid ≠ c'.id ∧ c'.email = some ce)) := by
  induction l with
  | nil => simp [dupScan]
  | cons cont rest ih =>
    have hcont := h cont (by simp)
    obtain ⟨e, he⟩ := Option.isSome_iff_exists.mp hcont
    have hrest := ih (fun c' hc' => h c' (by simp [hc']))
    rw [dupScan]
    by_cases hid : cid ≠ cont.id
    · rw [if_pos hid, he]
      show (if e = ce then some true else dupScan cid ce rest) = _
      by_cases heq : e = ce
      · subst heq
        have hex : ∃ c' ∈ cont :: rest, cid ≠ c'.id ∧ c'.email = some e :=
          ⟨cont, List.mem_cons_self cont rest, hid, he⟩
        rw [if_pos rfl, decide_eq_true hex]
      · rw [if_neg heq, hrest]
        congr 1
        rw [decide_eq_decide]
        constructor
        · rintro ⟨c', hc', hcc⟩
          exact ⟨c', List.mem_cons_of_mem _ hc', hcc⟩
        · rintro ⟨c', hc', hcc⟩
          rcases List.mem_cons.mp hc' with rfl | hmem
          · exfalso
            rw [he] at hcc
            exact heq (Option.some.inj hcc.2)
          · exact ⟨c', hmem, hcc⟩
    · rw [if_neg hid, hrest]
      push_neg at hid
      congr 1
      rw [decide_eq_decide]
      constructor
      · rintro ⟨c', hc', hcc⟩
        exact ⟨c', List.mem_cons_of_mem _ hc', hcc⟩
      · rintro ⟨c', hc', hcc⟩
        rcases List.mem_cons.mp hc' with rfl | hmem
        · exact absurd hid hcc.1
        · exact ⟨c', hmem, hcc⟩

theorem dupExists_iff_scan {s : Store} {c : Contact} {ce : String}
    (hce : c.email = some ce) :
    DupExists s c ↔ ∃ c' ∈ search s ce, c.id ≠ c'.id ∧ c'.email = some ce := by
  constructor
  · rintro ⟨p, hp, hid, hem⟩
    rw [hce] at hem
    refine ⟨p.2, mem_search.mpr ⟨mem_storeValues.mpr ⟨p, hp, rfl⟩, ?_⟩, Ne.symm hid, hem⟩
    rw [optMatch_of_eq hem]
    simp
  · rintro ⟨c', hc', hid, hem⟩
    obtain ⟨p, hp, rfl⟩ := mem_storeValues.mp (mem_search.mp hc').1
    exact ⟨p, hp, Ne.symm hid, by rw [hem, hce]⟩

/-! ### Save-path lemmas -/

theorem repoValidate_of_invalid {s : Store} {c : Contact}
    (h : (Contact.validate c).2 = false) :
    MemContactRepo.validate s c = some ((Contact.validate c).1, false) := by
  unfold MemContactRepo.validate
  simp [h]

theorem save_of_invalid {s : Store} {c : Contact}
    (h : (Contact.validate c).2 = false) :
    save s c = some (s, Except.error (Contact.validate c).1) := by
  unfold save
  rw [repoValidate_of_invalid h]

theorem repoValidate_dup {s : Store} {c : Contact} {ce : String}
    (hep : EmailsPresent s) (hce : c.email = some ce)
    (hval : Contact.validate c = (c, true)) (hdup : DupExists s c) :
    MemContactRepo.validate s c =
      some ({ c with errors := hmInsert "email" "Email Already Exists" c.errors }, false) := by
  have hscan := dupScan_spec c.id ce (search s ce) (search_emails_present hep)
  rw [decide_eq_true ((dupExists_iff_scan hce).mp hdup)] at hscan
  unfold MemContactRepo.validate
  rw [hval]
  simp [hce, hscan]

theorem repoValidate_nodup {s : Store} {c : Contact} {ce : String}
    (hep : EmailsPresent s) (hce : c.email = some ce)
    (hval : Contact.validate c = (c, true)) (hnd : ¬ DupExists s c) :
    MemContactRepo.validate s c = some (c, true) := by
  have hscan := dupScan_spec c.id ce (search s ce) (search_emails_present hep)
  rw [decide_eq_false (fun hex => hnd ((dupExists_iff_scan hce).mpr hex))] at hscan
  unfold MemContactRepo.validate
  rw [hval]
  simp [hce, hscan]

theorem save_dup {s : Store} {c : Contact} (hep : EmailsPresent s)
    (hv : (Contact.validate c).2 = true) (hdup : DupExists s c) :
    save s c =
      some (s, Except.error { c with errors := hmInsert "email" "Email Already Exists" c.errors }) := by
  obtain ⟨-, ce, hce, -, hval⟩ := validate_true_elim hv
  unfold save
  rw [repoValidate_dup hep hce hval hdup]

theorem save_nodup_id_none {s : Store} {c : Contact} (hep : EmailsPresent s)
    (hv : (Contact.validate c).2 = true) (hnd : ¬ DupExists s c)
    (hid : c.id = none) :
    save s c =
      some (hmInsert (max_id s + 1) { c with id := some (max_id s + 1) } s, Except.ok ()) := by
  obtain ⟨-, ce, hce, -, hval⟩ := validate_true_elim hv
  unfold save
  rw [repoValidate_nodup hep hce hval hnd]
  simp [hid]

theorem save_nodup_id_some {s : Store} {c : Contact} {i : Nat}
    (hep : EmailsPresent s) (hv : (Contact.validate c).2 = true)
    (hnd : ¬ DupExists s c) (hid : c.id = some i) :
    save s c = some (hmInsert i c s, Except.ok ()) := by
  obtain ⟨-, ce, hce, -, hval⟩ := validate_true_elim hv
  unfold save
  rw [repoValidate_nodup hep hce hval hnd]
  simp [hid]

/-! ### Inversion lemmas for save and delete -/

theorem bool_not_false_eq_true {b : Bool} (h : ¬ b = false) : b = true := by
  cases b with
  | false => exact absurd rfl h
  | true => rfl

theorem save_inv_of_ep {s s' : Store} {c : Contact} {r : Except Contact Unit}
    (hep : EmailsPresent s) (h : save s c = some (s', r)) :
    s' = s ∨ ∃ i c2, c2.errors = [] ∧ c2.id = some i ∧ c2.email.isSome = true ∧
      s' = hmInsert i c2 s := by
  by_cases hv : (Contact.validate c).2 = false
  · left
    rw [save_of_invalid hv] at h
    exact (congrArg Prod.fst (Option.some.inj h)).symm
  · have hv2 := bool_not_false_eq_true hv
    obtain ⟨herr, ce, hce, hcene, hval⟩ := validate_true_elim hv2
    by_cases hdup : DupExists s c
    · left
      rw [save_dup hep hv2 hdup] at h
      exact (congrArg Prod.fst (Option.some.inj h)).symm
    · right
      by_cases hid : c.id = none
      · rw [save_nodup_id_none hep hv2 hdup hid] at h
        exact ⟨max_id s + 1, { c with id := some (max_id s + 1) }, herr, rfl,
          by simp [hce], (congrArg Prod.fst (Option.some.inj h)).symm⟩
      · obtain ⟨i, hi⟩ := Option.ne_none_iff_exists'.mp hid
        rw [save_nodup_id_some hep hv2 hdup hi] at h
        exact ⟨i, c, herr, hi, by simp [hce],
          (congrArg Prod.fst (Option.some.inj h)).symm⟩

theorem save_ok_inv_of_ep {s s' : Store} {c : Contact}
    (hep : EmailsPresent s) (h : save s c = some (s', Except.ok ())) :
    ∃ i c2, c2.errors = [] ∧ c2.id = some i ∧ c2.email.isSome = true ∧
      s' = hmInsert i c2 s := by
  by_cases hv : (Contact.validate c).2 = false
  · rw [save_of_invalid hv] at h
    have := congrArg Prod.snd (Option.some.inj h)
    simp at this
  · have hv2 := bool_not_false_eq_true hv
    obtain ⟨herr, ce, hce, hcene, hval⟩ := validate_true_elim hv2
    by_cases hdup : DupExists s c
    · rw [save_dup hep hv2 hdup] at h
      have := congrArg Prod.snd (Option.some.inj h)
      simp at this
    · by_cases hid : c.id = none
      · rw [save_nodup_id_none hep hv2 hdup hid] at h
        exact ⟨max_id s + 1, { c with id := some (max_id s + 1) }, herr, rfl,
          by simp [hce], (congrArg Prod.fst (Option.some.inj h)).symm⟩
      · obtain ⟨i, hi⟩ := Option.ne_none_iff_exists'.mp hid
        rw [save_nodup_id_some hep hv2 hdup hi] at h
        exact ⟨i, c, herr, hi, by simp [hce],
          (congrArg Prod.fst (Option.some.inj h)).symm⟩

theorem delete_inv {s s' : Store} {c : Contact} (h : delete s c = some s') :
    ∃ i, c.id = some i ∧ s' = hmErase i s := by
  cases hid : c.id with
  | none =>
    unfold delete at h
    rw [hid] at h
    exact absurd h (by simp)
  | some i =>
    unfold delete at h
    rw [hid] at h
    have h2 : some (hmErase i s) = some s' := h
    exact ⟨i, rfl, (Option.some.inj h2).symm⟩

/-! ### Reachability invariants -/

theorem storeKeys_def (s : Store) : storeKeys s = s.map Prod.fst := rfl

theorem storeValues_def (s : Store) : storeValues s = s.map Prod.snd := rfl

theorem reachable_invariants {s : Store} (h : Reachable s) :
    EmailsPresent s ∧ NodupKeys s ∧ KeyIdAgree s ∧ ∀ p ∈ s, p.2.errors = [] := by
  induction h with
  | empty =>
    refine ⟨?_, ?_, ?_, ?_⟩ <;> simp [EmailsPresent, NodupKeys, KeyIdAgree, storeKeys]
  | save_step hr hsave ih =>
    obtain ⟨hep, hnd, hag, herr⟩ := ih
    rcases save_inv_of_ep hep hsave with rfl | ⟨i, c2, hc2err, hc2id, hc2em, rfl⟩
    · exact ⟨hep, hnd, hag, herr⟩
    · refine ⟨?_, ?_, ?_, ?_⟩
      · intro p hp
        rcases mem_hmInsert hp with rfl | hp2
        · exact hc2em
        · exact hep p hp2
      · rw [NodupKeys, storeKeys_def]
        exact keys_nodup_hmInsert i c2 _ hnd
      · intro p hp
        rcases mem_hmInsert hp with rfl | hp2
        · exact hc2id
        · exact hag p hp2
      · intro p hp
        rcases mem_hmInsert hp with rfl | hp2
        · exact hc2err
        · exact herr p hp2
  | delete_step hr hdel ih =>
    obtain ⟨hep, hnd, hag, herr⟩ := ih
    obtain ⟨i, hid, rfl⟩ := delete_inv hdel
    refine ⟨fun p hp => hep p (hmErase_sub hp), ?_,
      fun p hp => hag p (hmErase_sub hp), fun p hp => herr p (hmErase_sub hp)⟩
    rw [NodupKeys, storeKeys_def]
    exact hnd.sublist (List.Sublist.map Prod.fst (List.filter_sublist _))

/-! ### Persistence round-trip lemmas -/

theorem storeValues_cons (p : Nat × Contact) (rest : Store) :
    storeValues (p :: rest) = p.2 :: storeValues rest := rfl

theorem from_pathAux_values : ∀ (s acc : Store), KeyIdAgree s →
    (acc.map Prod.fst ++ s.map Prod.fst).Nodup →
    from_pathAux acc (storeValues s) = some (acc ++ s) := by
  intro s
  induction s with
  | nil =>
    intro acc _ _
    simp [storeValues, from_pathAux]
  | cons p rest ih =>
    intro acc hag hnd
    obtain ⟨k, c⟩ := p
    have hkc : c.id = some k := hag (k, c) (List.mem_cons_self _ _)
    have hagr : KeyIdAgree rest := fun q hq => hag q (List.mem_cons_of_mem _ hq)
    have hdisj := (List.nodup_append.mp hnd).2.2
    have hfresh : ∀ q ∈ acc, q.1 ≠ k := by
      intro q hq hqk
      exact hdisj (List.mem_map.mpr ⟨q, hq, hqk⟩) (by simp)
    rw [storeValues_cons]
    simp only [from_pathAux, hkc]
    rw [hmInsert_of_fresh c hfresh]
    have hnd2 : ((acc ++ [(k, c)]).map Prod.fst ++ rest.map Prod.fst).Nodup := by
      have heq : (acc ++ [(k, c)]).map Prod.fst ++ rest.map Prod.fst =
          acc.map Prod.fst ++ ((k, c) :: rest : Store).map Prod.fst := by
        simp [List.map_append, List.append_assoc]
      rw [heq]
      exact hnd
    rw [ih (acc ++ [(k, c)]) hagr hnd2]
    simp [List.append_assoc]

theorem roundtrip_of_invariants {s : Store} (hag : KeyIdAgree s)
    (hnd : NodupKeys s) :
    ContactStore.from_path (save_db s) = some s := by
  unfold ContactStore.from_path save_db
  have h := from_pathAux_values s [] hag (by simpa [storeKeys_def] using hnd)
  simpa using h

theorem from_pathAux_agree : ∀ (l : List Contact) (acc s : Store),
    KeyIdAgree acc → from_pathAux acc l = some s → KeyIdAgree s := by
  intro l
  induction l with
  | nil =>
    intro acc s hacc h
    have h2 : some acc = some s := h
    exact (Option.some.inj h2) ▸ hacc
  | cons c rest ih =>
    intro acc s hacc h
    cases hid : c.id with
    | none =>
      simp only [from_pathAux] at h
      rw [hid] at h
      have h2 : (none : Option Store) = some s := h
      exact absurd h2 (by simp)
    | some i =>
      simp only [from_pathAux] at h
      rw [hid] at h
      refine ih (hmInsert i c acc) s ?_ h
      intro p hp
      rcases mem_hmInsert hp with rfl | hp2
      · exact hid
      · exact hacc p hp2

/-! ### Value-sequence lemmas for pagination -/

theorem values_nodup_of_invariants {s : Store} (hnd : NodupKeys s)
    (hag : KeyIdAgree s) : (storeValues s).Nodup := by
  have hmap : (storeValues s).map Contact.id = (storeKeys s).map some := by
    rw [storeValues_def, storeKeys_def, List.map_map, List.map_map]
    exact List.map_congr_left (fun p hp => hag p hp)
  have h2 : ((storeValues s).map Contact.id).Nodup := by
    rw [hmap]
    exact hnd.map (Option.some_injective _)
  exact h2.of_map _

/-! ### Boolean search characterization -/

theorem optMatch_eq_true_iff {o : Option String} {q : String} :
    optMatch o q = true ↔ ∃ str, o = some str ∧ strContains str q = true := by
  cases o <;> simp [optMatch]

/-! ### Concrete fixtures used by witnesses -/

/-- A fresh contact with a unique email. -/
def contactAda : Contact := ⟨none, some "Ada", none, none, some "ada@x.com", []⟩

/-- The stored form of `contactAda` after its first save (id 2 assigned). -/
def contactAdaStored : Contact := { contactAda with id := some 2 }

/-- The store obtained by saving `contactAda` into the empty store. -/
def storeAda : Store := [(2, contactAdaStored)]

/-- A second fresh contact reusing Ada's email. -/
def contactBob : Contact := ⟨none, some "Bob", none, none, some "ada@x.com", []⟩

/-- A contact carrying an id that is absent from `storeAda`. -/
def contactGhost : Contact := ⟨some 7, none, none, none, some "g@x.com", []⟩

/-- A contact left over from a failed validation: its email has been fixed,
but the stale error entry is still in the map. -/
def staleContact : Contact :=
  ⟨some 1, none, none, none, some "joe@x.com", [("email", "Email Required")]⟩

/-- A stored contact with every optional field absent. -/
def contactBlank : Contact := ⟨some 1, none, none, none, none, []⟩

/-- A store holding only `contactBlank`. -/
def storeBlank : Store := [(1, contactBlank)]

/-- A contact with ids only, used for pagination stores. -/
def mkContact (i : Nat) : Contact := ⟨some i, none, none, none, none, []⟩

/-- A store with fifteen contacts keyed 1..15. -/
def store15 : Store := (List.range 15).map (fun j => (j + 1, mkContact (j + 1)))

/-! ### Claim theorems -/

/-- C1: for a store whose contacts all carry an email and a candidate
passing field validation, `save` fails and returns the candidate annotated
with `"email" → "Email Already Exists"`, leaving the store unchanged, if
and only if some stored contact with a different id has exactly (case
sensitively) the candidate's email; otherwise (in particular when the only
exact match is the contact's own stored record) the save succeeds. -/
theorem save_email_uniqueness (s : Store) (c : Contact)
    (hep : EmailsPresent s) (hv : (Contact.validate c).2 = true) :
    (DupExists s c ↔ save s c = some (s,
        Except.error { c with errors := hmInsert "email" "Email Already Exists" c.errors })) ∧
    (¬ DupExists s c → ∃ s2, save s c = some (s2, Except.ok ())) ∧
    hmLookup "email" (hmInsert "email" "Email Already Exists" c.errors) =
      some "Email Already Exists" := by
  have hsucc : ¬ DupExists s c → ∃ s2, save s c = some (s2, Except.ok ()) := by
    intro hnd
    by_cases hid : c.id = none
    · exact ⟨_, save_nodup_id_none hep hv hnd hid⟩
    · obtain ⟨i, hi⟩ := Option.ne_none_iff_exists'.mp hid
      exact ⟨_, save_nodup_id_some hep hv hnd hi⟩
  refine ⟨⟨fun hdup => save_dup hep hv hdup, fun hsv => ?_⟩, hsucc,
    hmLookup_insert_self _ _ _⟩
  by_contra hnd
  obtain ⟨s2, hs2⟩ := hsucc hnd
  rw [hs2] at hsv
  have h2 := congrArg Prod.snd (Option.some.inj hsv)
  simp at h2

/-- C1 witness: in the one-contact store, saving Bob with Ada's email fails
annotated, while re-saving Ada's own record (same id, same email) succeeds. -/
theorem save_email_uniqueness_witness :
    save storeAda contactBob = some (storeAda,
      Except.error { contactBob with
        errors := hmInsert "email" "Email Already Exists" contactBob.errors }) ∧
    (save storeAda contactAdaStored).isSome = true := by
  constructor
  · exact (save_email_uniqueness storeAda contactBob (by decide) (by decide)).1.mp (by decide)
  · obtain ⟨s2, hs2⟩ :=
      (save_email_uniqueness storeAda contactAdaStored (by decide) (by decide)).2.1 (by decide)
    rw [hs2]
    rfl

/-- C2: saving a contact whose email is absent or empty always fails,
returning the contact annotated with `"email" → "Email Required"`, with all
other fields untouched, and the store is returned unchanged. -/
theorem save_email_required (s : Store) (c : Contact)
    (h : c.email = none ∨ c.email = some "") :
    save s c = some (s, Except.error (Contact.validate c).1) ∧
    hmLookup "email" (Contact.validate c).1.errors = some "Email Required" ∧
    (Contact.validate c).1.id = c.id ∧ (Contact.validate c).1.first = c.first ∧
    (Contact.validate c).1.last = c.last ∧ (Contact.validate c).1.phone = c.phone ∧
    (Contact.validate c).1.email = c.email := by
  have hval : Contact.validate c =
      ({ c with errors := hmInsert "email" "Email Required" c.errors },
        (hmInsert "email" "Email Required" c.errors).length == 0) := by
    rcases h with h | h
    · exact validate_eq_none h
    · exact validate_eq_some_empty h
  have hfalse : (Contact.validate c).2 = false := by
    rw [hval]
    simp only [beq_eq_false_iff_ne, ne_eq]
    have := hmInsert_length_pos "email" "Email Required" c.errors
    omega
  refine ⟨save_of_invalid hfalse, ?_, ?_, ?_, ?_, ?_, ?_⟩ <;> rw [hval]
  exact hmLookup_insert_self _ _ _

/-- C2 witness: saving the default (email-less) contact into the one-contact
store fails with the email-required annotation and hands back the store. -/
theorem save_email_required_witness :
    save storeAda Contact.default =
      some (storeAda, Except.error (Contact.validate Contact.default).1) ∧
    hmLookup "email" (Contact.validate Contact.default).1.errors = some "Email Required" := by
  have h := save_email_required storeAda Contact.default (Or.inl rfl)
  exact ⟨h.1, h.2.1⟩

/-- C3: evaluation of `Contact::validate` at the failing input.  The claim
says a fresh validation pass fully recomputes the error map, so a contact
that previously failed and whose email has since been set to a non-empty
string should validate to `true` with an empty map.  The code instead
leaves the stale `"email" → "Email Required"` entry in place and returns
`false`: the map is only ever inserted into, never cleared. -/
theorem validate_keeps_stale_error :
    staleContact.email = some "joe@x.com" ∧
    (Contact.validate staleContact).2 = false ∧
    (Contact.validate staleContact).1.errors = [("email", "Email Required")] := by
  refine ⟨rfl, ?_, ?_⟩ <;> decide

/-- C4: when a valid, unique contact without an id is saved, the assigned
id is `max_id s + 1`, where `max_id` is the maximum key of the store or `1`
when the store is empty; hence the first contact saved into an empty store
receives id `2`, not `1`. -/
theorem save_assigns_next_id (s : Store) (c : Contact) (hid : c.id = none)
    (hep : EmailsPresent s) (hv : (Contact.validate c).2 = true)
    (hnd : ¬ DupExists s c) :
    save s c = some (hmInsert (max_id s + 1) { c with id := some (max_id s + 1) } s,
      Except.ok ()) ∧
    max_id [] + 1 = 2 :=
  ⟨save_nodup_id_none hep hv hnd hid, rfl⟩

/-- C4 witness: saving Ada into the empty store assigns id 2. -/
theorem save_assigns_next_id_witness :
    save [] contactAda = some (hmInsert 2 { contactAda with id := some 2 } [],
      Except.ok ()) :=
  (save_assigns_next_id [] contactAda rfl (by decide) (by decide) (by decide)).1

/-- C5: in every store state reachable from the empty store by `save` and
`delete`, every stored contact has an empty error map. -/
theorem reachable_errors_empty (s : Store) (h : Reachable s) :
    ∀ p ∈ s, p.2.errors = [] :=
  (reachable_invariants h).2.2.2

/-- C5 witness: the store reached by saving Ada holds her record with an
empty error map. -/
theorem reachable_errors_empty_witness : contactAdaStored.errors = [] := by
  have hreach : Reachable storeAda :=
    @Reachable.save_step [] storeAda contactAda (Except.ok ()) Reachable.empty (by rfl)
  exact reachable_errors_empty storeAda hreach (2, contactAdaStored) (by decide)

/-- C6: for every reachable store (in particular one built by successful
saves from the empty store), writing the store's contacts out as the JSON
array and rebuilding the store from that array restores the store exactly:
same keys, same contacts (id, first, last, phone, email included), and the
array holds exactly as many contacts as the store. -/
theorem persist_reload_roundtrip (s : Store) (h : Reachable s) :
    ContactStore.from_path (save_db s) = some s ∧
    (save_db s).length = s.length := by
  obtain ⟨-, hnd, hag, -⟩ := reachable_invariants h
  refine ⟨roundtrip_of_invariants hag hnd, ?_⟩
  simp [save_db, storeValues]

/-- C6 witness: the one-save store round-trips through its file image. -/
theorem persist_reload_roundtrip_witness :
    ContactStore.from_path (save_db storeAda) = some storeAda := by
  have hreach : Reachable storeAda :=
    @Reachable.save_step [] storeAda contactAda (Except.ok ()) Reachable.empty (by rfl)
  exact (persist_reload_roundtrip storeAda hreach).1

/-- C7: for every store and every 1-indexed page, `all` returns at most 10
contacts, namely the entries at offsets `(page-1)*10 + j` (j < 10) of the
store's iteration sequence; and on a 15-contact store (with the map's
key/id discipline) page 2 holds exactly the 5 remaining contacts, disjoint
from page 1's 10. -/
theorem all_pagination (s : Store) (page : Nat) (hp : 1 ≤ page) :
    (all s page).length ≤ 10 ∧
    (∀ j, j < 10 → (all s page)[j]? = (storeValues s)[(page - 1) * 10 + j]?) ∧
    (s.length = 15 → NodupKeys s → KeyIdAgree s →
      (all s 2).length = 5 ∧ ∀ c ∈ all s 2, c ∉ all s 1) := by
  refine ⟨List.length_take_le _ _, ?_, ?_⟩
  · intro j hj
    unfold all PAGE_SIZE
    rw [List.getElem?_take_of_lt hj, List.getElem?_drop]
  · intro h15 hnd hag
    have hvlen : (storeValues s).length = 15 := by
      rw [storeValues_def, List.length_map, h15]
    constructor
    · unfold all PAGE_SIZE
      rw [List.length_take, List.length_drop, hvlen]
      rfl
    · have hnodup : (storeValues s).Nodup := values_nodup_of_invariants hnd hag
      have hsplit := List.take_append_drop 10 (storeValues s)
      rw [← hsplit] at hnodup
      have hdisj := (List.nodup_append.mp hnodup).2.2
      intro c hc2 hc1
      have hc2' : c ∈ (storeValues s).drop 10 := by
        unfold all PAGE_SIZE at hc2
        exact List.take_subset _ _ hc2
      have hc1' : c ∈ (storeValues s).take 10 := by
        unfold all PAGE_SIZE at hc1
        simpa using hc1
      exact hdisj hc1' hc2'

/-- C7 witness: on the 15-contact store, page 2 holds 5 contacts and its
eleventh contact is not on page 1. -/
theorem all_pagination_witness :
    (all store15 2).length = 5 ∧ mkContact 11 ∉ all store15 1 := by
  have h := (all_pagination store15 2 (by decide)).2.2 (by decide) (by decide) (by decide)
  exact ⟨h.1, h.2 (mkContact 11) (by decide)⟩

/-- C8 counterexample: in a store holding one contact all of whose fields
are absent, the empty-query search returns the empty list, not all
contacts — absent fields never match, even against the empty query, so the
claim that the empty query returns every stored contact fails here. -/
theorem search_empty_counterexample :
    search storeBlank "" = [] ∧ (storeValues storeBlank).length = 1 ∧
    search storeBlank "" ≠ storeValues storeBlank := by
  refine ⟨rfl, rfl, ?_⟩
  decide

/-- C8 amended: `search q` returns exactly the stored contacts having some
present field of which `q` is a case-sensitive substring (absent fields
never match); consequently `search ""` returns all contacts on any store
whose contacts each carry an email (true of every repository-produced
state), rather than on every store. -/
theorem search_substring_characterization (s : Store) (q : String) :
    (∀ c, c ∈ search s q ↔ c ∈ storeValues s ∧
      ∃ str, (c.first = some str ∨ c.last = some str ∨
              c.phone = some str ∨ c.email = some str) ∧
        strContains str q = true) ∧
    (EmailsPresent s → search s "" = storeValues s) := by
  constructor
  · intro c
    rw [mem_search]
    constructor
    · rintro ⟨hmem, hb⟩
      refine ⟨hmem, ?_⟩
      simp only [Bool.or_eq_true, optMatch_eq_true_iff] at hb
      rcases hb with ((⟨str, hs, hc⟩ | ⟨str, hs, hc⟩) | ⟨str, hs, hc⟩) | ⟨str, hs, hc⟩
      · exact ⟨str, Or.inl hs, hc⟩
      · exact ⟨str, Or.inr (Or.inl hs), hc⟩
      · exact ⟨str, Or.inr (Or.inr (Or.inl hs)), hc⟩
      · exact ⟨str, Or.inr (Or.inr (Or.inr hs)), hc⟩
    · rintro ⟨hmem, str, hf, hc⟩
      refine ⟨hmem, ?_⟩
      simp only [Bool.or_eq_true, optMatch_eq_true_iff]
      rcases hf with hf | hf | hf | hf
      · exact Or.inl (Or.inl (Or.inl ⟨str, hf, hc⟩))
      · exact Or.inl (Or.inl (Or.inr ⟨str, hf, hc⟩))
      · exact Or.inl (Or.inr ⟨str, hf, hc⟩)
      · exact Or.inr ⟨str, hf, hc⟩
  · intro hep
    unfold search
    rw [List.filter_eq_self]
    intro c hc
    obtain ⟨p, hp, rfl⟩ := mem_storeValues.mp hc
    obtain ⟨str, hstr⟩ := Option.isSome_iff_exists.mp (hep p hp)
    have : optMatch p.2.email "" = true := by
      rw [hstr]
      simp [optMatch, strContains_empty]
    rw [this]
    simp

/-- C8 amended witness: on the one-contact store (whose contact carries an
email), the empty query returns every stored contact. -/
theorem search_substring_characterization_witness :
    search storeAda "" = storeValues storeAda :=
  (search_substring_characterization storeAda "").2 (by decide)

/-- C9: `delete` on a contact that carries an id removes exactly the entry
stored under that id (every other key is untouched), and when the id is
absent from the store it is a silent no-op: the store is returned with the
same size and contents. -/
theorem delete_removes_by_id (s : Store) (c : Contact) (i : Nat)
    (h : c.id = some i) :
    delete s c = some (hmErase i s) ∧
    find (hmErase i s) i = none ∧
    (∀ k, k ≠ i → find (hmErase i s) k = find s k) ∧
    (find s i = none → hmErase i s = s) := by
  refine ⟨?_, hmLookup_eraseKey_self i s, fun k hk => hmLookup_eraseKey_ne hk s,
    fun hn => hmErase_of_lookup_none hn⟩
  unfold delete
  rw [h]

/-- C9 witness: deleting the ghost contact (id 7, absent) from the
one-contact store succeeds and leaves the store exactly as it was. -/
theorem delete_removes_by_id_witness :
    delete storeAda contactGhost = some (hmErase 7 storeAda) ∧
    hmErase 7 storeAda = storeAda := by
  have h := delete_removes_by_id storeAda contactGhost 7 rfl
  exact ⟨h.1, h.2.2.2 (by decide)⟩

/-- C10: key–id agreement.  Every store reachable from the empty store via
`save` and `delete`, and every store loaded from a well-formed file image,
maps each key to a contact carrying exactly that key as its id; a
successful `save` (on a store whose contacts carry emails) inserts the
saved contact under precisely the id it carries, and `delete` removes
exactly the key equal to the given contact's id. -/
theorem key_id_agreement :
    (∀ s : Store, Reachable s → KeyIdAgree s) ∧
    (∀ (l : List Contact) (s : Store), ContactStore.from_path l = some s →
      KeyIdAgree s) ∧
    (∀ (s s' : Store) (c : Contact), EmailsPresent s →
      save s c = some (s', Except.ok ()) →
      ∃ i c2, c2.id = some i ∧ s' = hmInsert i c2 s) ∧
    (∀ (s : Store) (c : Contact) (i : Nat), c.id = some i →
      delete s c = some (hmErase i s)) := by
  refine ⟨fun s hr => (reachable_invariants hr).2.2.1,
    fun l s h => from_pathAux_agree l [] s (by simp [KeyIdAgree]) h,
    fun s s' c hep h => ?_, fun s c i h => ?_⟩
  · obtain ⟨i, c2, -, hc2id, -, rfl⟩ := save_ok_inv_of_ep hep h
    exact ⟨i, c2, hc2id, rfl⟩
  · unfold delete
    rw [h]

/-- C10 witness: the reached one-contact store satisfies the agreement at
its only entry, a loaded singleton file image satisfies it, and deleting by
id 7 erases exactly key 7. -/
theorem key_id_agreement_witness :
    contactAdaStored.id = some 2 ∧ contactBlank.id = some 1 ∧
    delete storeAda contactGhost = some (hmErase 7 storeAda) := by
  have hreach : Reachable storeAda :=
    @Reachable.save_step [] storeAda contactAda (Except.ok ()) Reachable.empty (by rfl)
  refine ⟨key_id_agreement.1 storeAda hreach (2, contactAdaStored) (by decide),
    key_id_agreement.2.1 [contactBlank] storeBlank (by rfl) (1, contactBlank) (by decide),
    key_id_agreement.2.2.2 storeAda contactGhost 7 rfl⟩
